import Mathlib

/-!
A shallow embedding of the GraphLab splash scheduler
(`src/graphlab/schedulers/splash_scheduler.hpp`) and proofs of its
specified properties.

Modelling conventions:
* Machine integers (`size_t`, `vertex_id_t`, `uint32_t`) become `Nat`;
  none of the modelled operations can overflow on the inputs considered.
* `double` priorities become `Rat`; the scheduler only compares and maxes
  priorities, so the embedding is faithful for all finitely representable
  values used here.
* Threads and locks are elided: each scheduler operation is modelled as an
  atomic state transformer, which matches the source's locking discipline
  (a single shard lock around each queue operation).
* The graph is accessed only through `in_edge_ids`, `out_edge_ids` and
  `source`; we model the in-edge list of a vertex directly by the list of
  its source vertices (in edge-id order) and the out-edge list by its
  length.
* `std::random_shuffle` becomes an explicit `shuffle` parameter of the
  configuration; concrete scenarios use the identity (for the graphs in the
  scenarios every shuffled list has at most one element, so the identity is
  the only possible permutation).
* The two unbounded `while(true)` loops (the BFS growth loop in
  `rebuild_splash` and the outer loop of `next_task_from_splash`) take an
  explicit fuel argument; the theorems below hold for every fuel.
-/

namespace SplashSched

/-- A directed graph as consumed by the scheduler: `num_vertices`,
`in_edge_ids` composed with `source` (giving the list of in-neighbor
source vertices in edge order, possibly with repeats), and the number of
out-edges of each vertex. -/
structure SGraph where
  numVertices : Nat
  inNbrs : Nat → List Nat
  outDeg : Nat → Nat

/-- Configuration fixed at construction / by setters: the graph, `ncpus`,
`splash_size`, and the shuffle used by `std::random_shuffle` during BFS
expansion. -/
structure Config where
  g : SGraph
  ncpus : Nat
  splashSize : Nat
  shuffle : List Nat → List Nat

/-- `queue_multiple = 5` from the source. -/
def queue_multiple : Nat := 5

/-- `vmap[v] = v % pqueues.size()` with `pqueues.size() = ncpus * queue_multiple`,
as initialized in the constructor. -/
def vmap (cfg : Config) (v : Nat) : Nat := v % (cfg.ncpus * queue_multiple)

/-- `work(v) = in_edge_ids(v).size() + out_edge_ids(v).size()`. -/
def work (g : SGraph) (v : Nat) : Nat := (g.inNbrs v).length + g.outDeg v

/-- A shard priority queue: an association list of (vertex, priority)
entries with distinct vertices.  Modelled from the spec: the
`mutable_queue` container itself is an external collaborator; §3 of the
spec gives its contract (`insert_or_promote_max`, `contains`, `remove`,
`top`, `pop`, `empty`). -/
abbrev PQueue := List (Nat × Rat)

/-- `mutable_queue::contains`.  Modelled from the spec (§3). -/
def qContains (q : PQueue) (v : Nat) : Bool :=
  q.any fun e => decide (e.1 = v)

/-- `mutable_queue::insert_max`: insert if absent, otherwise raise the
stored priority to the max of old and new.  Modelled from the spec (§3). -/
def qInsertMax (q : PQueue) (v : Nat) (p : Rat) : PQueue :=
  if qContains q v then
    q.map fun e => if e.1 = v then (e.1, max e.2 p) else e
  else
    (v, p) :: q

/-- `mutable_queue::remove`: drop the entry for `v` (the queue never holds
duplicate keys, cf. `qInsertMax`).  Modelled from the spec (§3):
`remove(v)` returns true iff `v` was present and is no longer present;
the success flag is recovered as `qContains q v`. -/
def qRemove (q : PQueue) (v : Nat) : PQueue :=
  q.filter fun e => decide (e.1 ≠ v)

/-- One comparison step of `qTop`: keep the running maximum, preferring
the earlier entry on ties. -/
def topStep (acc : Option (Nat × Rat)) (e : Nat × Rat) : Option (Nat × Rat) :=
  match acc with
  | none => some e
  | some b => if b.2 < e.2 then some e else some b

/-- `mutable_queue::top`: an entry of maximal priority.  Modelled from the
spec (§3); ties are broken toward the earlier entry, which is irrelevant
to every claim below (all concrete scenarios have singleton queues). -/
def qTop (q : PQueue) : Option (Nat × Rat) :=
  q.foldl topStep none

/-- The mutable state of the scheduler.  `jobs` is the log of
`terminator.new_job(cpuid)` notifications (most recent first); the
terminator itself is an external collaborator, and only the notifications
the scheduler sends it are modelled. -/
structure SState where
  pqueues : List PQueue
  splashes : List (List Nat)
  splashIdx : List Nat
  lastqid : List Nat
  activeSet : List Bool
  aborted : Bool
  jobs : List Nat
deriving DecidableEq

/-- The state built by the constructor: empty queues and splashes,
`lastqid` all zero (the `static size_t lastqid[128] = {0}` array),
an all-clear active set of size `num_vertices`, not aborted. -/
def initState (cfg : Config) : SState where
  pqueues := List.replicate (cfg.ncpus * queue_multiple) []
  splashes := List.replicate cfg.ncpus []
  splashIdx := List.replicate cfg.ncpus 0
  lastqid := List.replicate cfg.ncpus 0
  activeSet := List.replicate cfg.g.numVertices false
  aborted := false
  jobs := []

/-- `add_task(task, priority)`: set the active-set bit (recording its prior
value), insert/promote into the shard queue if the vertex was not already
pending or is still queued, and notify the terminator for cpu
`pqueue_id / queue_multiple`.  The update-function payload of the task is
opaque to the scheduler and elided. -/
def add_task (cfg : Config) (s : SState) (v : Nat) (p : Rat) : SState :=
  let pqueueId := vmap cfg v
  let alreadyPresent := s.activeSet.getD v false
  let s1 := { s with activeSet := s.activeSet.set v true }
  let s2 :=
    if !alreadyPresent || qContains (s1.pqueues.getD pqueueId []) v then
      { s1 with pqueues :=
          s1.pqueues.set pqueueId (qInsertMax (s1.pqueues.getD pqueueId []) v p) }
    else s1
  { s2 with jobs := (pqueueId / queue_multiple) :: s2.jobs }

/-- `add_task_to_all(func, priority)`: `add_task` for every vertex in order
(the update function is shared and elided). -/
def add_task_to_all (cfg : Config) (s : SState) (p : Rat) : SState :=
  (List.range cfg.g.numVertices).foldl (fun st v => add_task cfg st v p) s

/-- One probe of `get_top`: if a result was already found, pass it through
(the source breaks out of the loop by returning); otherwise inspect the
queue `cpuid * queue_multiple + j`, and on success pop its top and set
`lastqid[cpuid] := j + 1`. -/
def tryShard (cpu j : Nat) (acc : Option (Nat × Rat) × SState) :
    Option (Nat × Rat) × SState :=
  match acc.1 with
  | some r => (some r, acc.2)
  | none =>
    let s := acc.2
    let index := cpu * queue_multiple + j
    let q := s.pqueues.getD index []
    match qTop q with
    | none => (none, s)
    | some vp =>
      (some vp,
       { s with pqueues := s.pqueues.set index (qRemove q vp.1),
                lastqid := s.lastqid.set cpu (j + 1) })

/-- `get_top(cpuid, ...)`: probe the `queue_multiple` shards owned by
`cpuid` in rotating order starting after the last hit; on total failure
reset `lastqid[cpuid]` to 0. -/
def get_top (s : SState) (cpu : Nat) : Option (Nat × Rat) × SState :=
  let js := (List.range queue_multiple).map
    fun i => (i + s.lastqid.getD cpu 0) % queue_multiple
  let r := js.foldl (fun acc j => tryShard cpu j acc) (none, s)
  match r.1 with
  | none => (none, { r.2 with lastqid := r.2.lastqid.set cpu 0 })
  | some vp => (some vp, r.2)

/-- The seeding loop over a shuffled in-edge list: every neighbor not yet
visited is marked visited and pushed on the BFS queue.  (At the root the
source pushes unconditionally; see `build_forward`.) -/
def enqueueFresh : List Nat → List Nat → List Nat → List Nat × List Nat
  | visited, bq, [] => (visited, bq)
  | visited, bq, n :: rest =>
    if visited.contains n then enqueueFresh visited bq rest
    else enqueueFresh (visited ++ [n]) (bq ++ [n]) rest

/-- The BFS growth loop of `rebuild_splash`: while the accumulated work is
below `splash_size` and the BFS queue is nonempty, pop a vertex; skip it if
its work would overshoot the budget or if it is no longer in its shard
queue; otherwise remove it from its shard queue, append it to the splash,
add its work, and enqueue its unvisited shuffled in-neighbors.  Returns
the forward splash order and the updated shard queues. -/
def bfsLoop (cfg : Config) :
    Nat → List Nat → List Nat → List Nat → Nat → List PQueue →
    List Nat × List PQueue
  | 0, splash, _, _, _, pqs => (splash, pqs)
  | Nat.succ fuel, splash, visited, bq, swork, pqs =>
    if swork < cfg.splashSize then
      match bq with
      | [] => (splash, pqs)
      | v :: rest =>
        let vw := work cfg.g v
        if cfg.splashSize < vw + swork then
          bfsLoop cfg fuel splash visited rest swork pqs
        else
          let qid := vmap cfg v
          let q := pqs.getD qid []
          if qContains q v then
            let nbrs := cfg.shuffle (cfg.g.inNbrs v)
            let vb := enqueueFresh visited rest nbrs
            bfsLoop cfg fuel (splash ++ [v]) vb.1 vb.2 (swork + vw)
              (pqs.set qid (qRemove q v))
          else
            bfsLoop cfg fuel splash visited rest swork pqs
    else (splash, pqs)

/-- The first half of `rebuild_splash`: clear the splash and its cursor. -/
def clearSplash (s : SState) (cpu : Nat) : SState :=
  { s with splashes := s.splashes.set cpu [],
           splashIdx := s.splashIdx.set cpu 0 }

/-- `rebuild_splash` up to (but not including) the reverse pass: clear the
splash, pop a root via `get_top`, and if one was found grow the BFS tree.
Returns the forward splash order (empty when no root was found) and the
state with the updated queues. -/
def build_forward (cfg : Config) (fuel : Nat) (s : SState) (cpu : Nat) :
    List Nat × SState :=
  let s0 := clearSplash s cpu
  let tr := get_top s0 cpu
  match tr.1 with
  | none => ([], tr.2)
  | some (root, rootPriority) =>
    let swork := if 1 < rootPriority then cfg.splashSize else work cfg.g root
    let nbrs := cfg.shuffle (cfg.g.inNbrs root)
    let fp := bfsLoop cfg fuel [root] (root :: nbrs) nbrs swork tr.2.pqueues
    (fp.1, { tr.2 with pqueues := fp.2 })

/-- The reverse pass of `rebuild_splash`.  The source reverses the buffer
in place, resizes it to `2n-1` and runs
`for (i = 0; i < n-1; i++) splash[2n-2-i] = splash[i]`; reading the
reversed prefix (untouched by the writes, which all land at indices `≥ n`)
this fills positions `n .. 2n-2` with `fwd[1], ..., fwd[n-1]`, so the
final buffer is `fwd.reverse ++ fwd.drop 1`. -/
def palindromize (fwd : List Nat) : List Nat :=
  if 1 < fwd.length then fwd.reverse ++ fwd.drop 1 else fwd

/-- `rebuild_splash(cpuid)`: build the forward order and install its
palindromized form as the worker's splash buffer. -/
def rebuild_splash (cfg : Config) (fuel : Nat) (s : SState) (cpu : Nat) :
    SState :=
  let fs := build_forward cfg fuel s cpu
  { fs.2 with splashes := fs.2.splashes.set cpu (palindromize fs.1) }

/-- The state change of one iteration of the inner loop of
`next_task_from_splash`: read the vertex under the cursor, advance the
cursor, remove the vertex from its shard queue (best effort) and clear its
active-set bit. -/
def scanStep (cfg : Config) (s : SState) (cpu : Nat) : SState :=
  let idx := s.splashIdx.getD cpu 0
  let v := (s.splashes.getD cpu []).getD idx 0
  let s1 := { s with splashIdx := s.splashIdx.set cpu (idx + 1) }
  let qid := vmap cfg v
  let q1 := qRemove (s1.pqueues.getD qid []) v
  let s2 := { s1 with pqueues := s1.pqueues.set qid q1 }
  { s2 with activeSet := s2.activeSet.set v false }

/-- The inner loop of `next_task_from_splash`: while the cursor is not at
the end, perform a `scanStep` and produce the vertex iff its active-set
bit was previously set (the return value of `clear_bit`, read here from
`s` since the cursor and queue updates leave the active set untouched).
The fuel is the number of remaining positions, so the loop is fully
executed. -/
def scanSplash (cfg : Config) : SState → Nat → Nat → Option Nat × SState
  | s, _, 0 => (none, s)
  | s, cpu, Nat.succ fuel =>
    let buf := s.splashes.getD cpu []
    let idx := s.splashIdx.getD cpu 0
    if idx < buf.length then
      let v := buf.getD idx 0
      let wasSet := s.activeSet.getD v false
      let s3 := scanStep cfg s cpu
      if wasSet then (some v, s3) else scanSplash cfg s3 cpu fuel
    else (none, s)

/-- The scheduler status as far as `next_task_from_splash` is concerned
(`COMPLETE` is decided by the external terminator and never produced
here). -/
inductive SStatus where
  | NewTask (v : Nat)
  | Waiting
deriving DecidableEq

/-- `next_task_from_splash(cpuid)`: if aborted report WAITING; rebuild the
splash when the cursor is at the end; report WAITING if it is still empty;
otherwise scan the buffer, returning the produced vertex or looping to
rebuild again.  `none` means the outer-loop fuel ran out (at most one
rebuild per fuel unit). -/
def next_task_from_splash (cfg : Config) (bfsFuel : Nat) :
    Nat → SState → Nat → Option SStatus × SState
  | 0, s, _ => (none, s)
  | Nat.succ fuel, s, cpu =>
    if s.aborted then (some SStatus.Waiting, s)
    else
      let s1 :=
        if (s.splashes.getD cpu []).length ≤ s.splashIdx.getD cpu 0 then
          rebuild_splash cfg bfsFuel s cpu
        else s
      if (s1.splashes.getD cpu []).length ≤ s1.splashIdx.getD cpu 0 then
        (some SStatus.Waiting, s1)
      else
        let sc := scanSplash cfg s1 cpu
          ((s1.splashes.getD cpu []).length - s1.splashIdx.getD cpu 0)
        match sc.1 with
        | some v => (some (SStatus.NewTask v), sc.2)
        | none => next_task_from_splash cfg bfsFuel fuel sc.2 cpu

/-- `abort()`: set the abort flag. -/
def abortSched (s : SState) : SState := { s with aborted := true }

/-- `restart()`: clear every splash buffer and cursor and unset the abort
flag.  The shard queues and the active set are left untouched. -/
def restartSched (s : SState) : SState :=
  { s with splashes := s.splashes.map fun _ => ([] : List Nat),
           splashIdx := s.splashIdx.map fun _ => 0,
           aborted := false }

/-- `start()`: build an initial splash for every worker (the terminator
reset is external). -/
def startSched (cfg : Config) (bfsFuel : Nat) (s : SState) : SState :=
  (List.range cfg.ncpus).foldl (fun st i => rebuild_splash cfg bfsFuel st i) s

/-- Repeatedly call `next_task_from_splash` for one worker, collecting the
produced vertices in order, stopping at the first non-`NEWTASK` answer. -/
def drainCollect (cfg : Config) (bfsFuel nFuel : Nat) :
    Nat → SState → Nat → List Nat × SState
  | 0, s, _ => ([], s)
  | Nat.succ k, s, cpu =>
    let r := next_task_from_splash cfg bfsFuel nFuel s cpu
    match r.1 with
    | some (SStatus.NewTask v) =>
      let ds := drainCollect cfg bfsFuel nFuel k r.2 cpu
      (v :: ds.1, ds.2)
    | _ => ([], r.2)

/-- `v` is present in shard queue `i` of state `s`. -/
def queueHas (s : SState) (i v : Nat) : Bool :=
  qContains (s.pqueues.getD i []) v

/-- The structural well-formedness that every reachable scheduler state
enjoys: the active set has one bit per vertex, there is one queue per
shard, and every queued entry is a valid vertex, lives in its own shard,
and has its active-set bit set. -/
def goodState (cfg : Config) (s : SState) : Prop :=
  s.activeSet.length = cfg.g.numVertices ∧
  s.pqueues.length = cfg.ncpus * queue_multiple ∧
  ∀ i e, e ∈ s.pqueues.getD i [] →
    e.1 < cfg.g.numVertices ∧ vmap cfg e.1 = i ∧ s.activeSet.getD e.1 false = true

/-- The maximum of `work` over all vertices of the graph. -/
def maxWork (cfg : Config) : Nat :=
  ((List.range cfg.g.numVertices).map (work cfg.g)).foldl Nat.max 0

/-- States reachable from the freshly constructed scheduler through the
public interface.  `add` carries the source's `assert(task.vertex() <
graph.num_vertices())` precondition. -/
inductive Reachable (cfg : Config) : SState → Prop where
  | init : Reachable cfg (initState cfg)
  | add : ∀ {s} (v : Nat) (p : Rat), Reachable cfg s →
      v < cfg.g.numVertices → Reachable cfg (add_task cfg s v p)
  | addAll : ∀ {s} (p : Rat), Reachable cfg s →
      Reachable cfg (add_task_to_all cfg s p)
  | next : ∀ {s} (bf f cpu : Nat), Reachable cfg s →
      Reachable cfg (next_task_from_splash cfg bf f s cpu).2
  | ab : ∀ {s}, Reachable cfg s → Reachable cfg (abortSched s)
  | rst : ∀ {s}, Reachable cfg s → Reachable cfg (restartSched s)
  | strt : ∀ {s} (bf : Nat), Reachable cfg s →
      Reachable cfg (startSched cfg bf s)

/-- One interface call of an execution history: a task submission, one
`get_next_task` poll of a worker (with its two fuels), `abort`, `restart`
or `start`. -/
inductive Op where
  | add (v : Nat) (p : Rat)
  | getNext (cpu bfsFuel nFuel : Nat)
  | doAbort
  | doRestart
  | doStart (bfsFuel : Nat)

/-- Execute one interface call; the second component is the vertex
produced to the caller, when the call was a poll answered by NEWTASK. -/
def stepOp (cfg : Config) (s : SState) : Op → SState × Option Nat
  | Op.add v p => (add_task cfg s v p, none)
  | Op.getNext cpu bf nf =>
    let r := next_task_from_splash cfg bf nf s cpu
    match r.1 with
    | some (SStatus.NewTask v) => (r.2, some v)
    | _ => (r.2, none)
  | Op.doAbort => (abortSched s, none)
  | Op.doRestart => (restartSched s, none)
  | Op.doStart bf => (startSched cfg bf s, none)

/-- The sequence of vertices delivered along a history of interface
calls. -/
def runOps (cfg : Config) : SState → List Op → List Nat
  | _, [] => []
  | s, op :: rest =>
    let r := stepOp cfg s op
    r.2.toList ++ runOps cfg r.1 rest

/-- Does this interface call submit a task for vertex `v`? -/
def addsVertex (v : Nat) : Op → Bool
  | Op.add w _ => w == v
  | _ => false

/-- The chain graph 0 → 1 → 2 → 3 → 4 of the spec's second end-to-end
scenario: `in_edge_ids(v)` yields the single edge from `v-1` for
`1 ≤ v ≤ 4`, and each of the vertices 0..3 has one out-edge. -/
def chain5 : SGraph where
  numVertices := 5
  inNbrs := fun v => match v with
    | 1 => [0] | 2 => [1] | 3 => [2] | 4 => [3] | _ => []
  outDeg := fun v => if v < 4 then 1 else 0

/-- Configuration of the chain scenario: `ncpus = 1`, `splash_size = 100`;
every in-edge list has at most one element, so the identity is the only
possible shuffle. -/
def cfgChain : Config where
  g := chain5
  ncpus := 1
  splashSize := 100
  shuffle := fun l => l

/-- The chain scenario state right after `add_task_to_all(f, 1.0)`. -/
def sChain : SState := add_task_to_all cfgChain (initState cfgChain) 1

/-- A two-vertex graph with the single edge 1 → 0 (so vertex 0 has the
in-neighbor 1). -/
def g2 : SGraph where
  numVertices := 2
  inNbrs := fun v => match v with | 0 => [1] | _ => []
  outDeg := fun v => match v with | 1 => 1 | _ => 0

/-- Configuration over `g2` with one worker. -/
def cfg2 : Config where
  g := g2
  ncpus := 1
  splashSize := 100
  shuffle := fun l => l

/-- Both vertices of `g2` submitted with priority 1. -/
def s2a : SState := add_task cfg2 (add_task cfg2 (initState cfg2) 0 1) 1 1

/-- `s2a` after one task has been drained (it is vertex 1, the first
entry of the palindromic buffer [1, 0, 1]); vertex 0 now sits undelivered
in the splash buffer and in no shard queue. -/
def s2b : SState := (drainCollect cfg2 100 10 1 s2a 0).2

/-- A one-vertex graph with no edges (the spec's single-vertex
scenario). -/
def g1 : SGraph where
  numVertices := 1
  inNbrs := fun _ => []
  outDeg := fun _ => 0

/-- Configuration over `g1` with one worker. -/
def cfg1 : Config where
  g := g1
  ncpus := 1
  splashSize := 100
  shuffle := fun l => l

/-- `g1` after `add_task(0, 3.0)`: an urgent root (priority above 1). -/
def s1urgent : SState := add_task cfg1 (initState cfg1) 0 3

/-! ### List helpers -/

theorem getD_set_ne_idx {α : Type} (l : List α) {i j : Nat} (h : i ≠ j)
    (a d : α) : (l.set i a).getD j d = l.getD j d := by
  simp [List.getD_eq_getElem?_getD, List.getElem?_set_ne h]

theorem getD_set_lt_idx {α : Type} (l : List α) {i : Nat} (h : i < l.length)
    (a d : α) : (l.set i a).getD i d = a := by
  simp [List.getD_eq_getElem?_getD, List.getElem?_set_self h]

theorem getD_set_same {α : Type} (l : List α) (i : Nat) (a : α) :
    (l.set i a).getD i a = a := by
  rcases Nat.lt_or_ge i l.length with h | h
  · exact getD_set_lt_idx l h a a
  · have hset : l.set i a = l := List.set_eq_of_length_le h
    rw [hset, List.getD_eq_getElem?_getD, List.getElem?_eq_none h]
    rfl

theorem mem_getD_set {l : List PQueue} {j i : Nat} {q : PQueue}
    {e : Nat × Rat} (h : e ∈ (l.set j q).getD i []) :
    (i = j ∧ e ∈ q) ∨ e ∈ l.getD i [] := by
  rw [List.getD_eq_getElem?_getD, List.getElem?_set] at h
  by_cases hji : j = i
  · subst hji
    by_cases hl : j < l.length
    · simp [hl] at h
      exact Or.inl ⟨rfl, h⟩
    · simp [hl] at h
  · simp [hji] at h
    rw [List.getD_eq_getElem?_getD]
    exact Or.inr h

theorem le_foldl_max (l : List Nat) (a : Nat) : a ≤ l.foldl Nat.max a := by
  induction l generalizing a with
  | nil => exact Nat.le_refl a
  | cons x xs ih =>
    exact Nat.le_trans (Nat.le_max_left a x) (ih (Nat.max a x))

theorem mem_le_foldl_max {x : Nat} {l : List Nat} (h : x ∈ l) (a : Nat) :
    x ≤ l.foldl Nat.max a := by
  induction l generalizing a with
  | nil => cases h
  | cons y ys ih =>
    rcases List.mem_cons.mp h with rfl | hmem
    · exact Nat.le_trans (Nat.le_max_right a x) (le_foldl_max ys (Nat.max a x))
    · exact ih hmem (Nat.max a y)

/-! ### Queue helpers -/

theorem qContains_iff {q : PQueue} {v : Nat} :
    qContains q v = true ↔ ∃ e ∈ q, e.1 = v := by
  simp [qContains, List.any_eq_true]

theorem mem_qRemove {q : PQueue} {v : Nat} {e : Nat × Rat} :
    e ∈ qRemove q v ↔ e ∈ q ∧ e.1 ≠ v := by
  simp [qRemove, List.mem_filter]

theorem mem_qInsertMax {q : PQueue} {v : Nat} {p : Rat} {e : Nat × Rat}
    (h : e ∈ qInsertMax q v p) : (∃ e0 ∈ q, e.1 = e0.1) ∨ e = (v, p) := by
  unfold qInsertMax at h
  by_cases hc : qContains q v
  · simp only [hc, if_true, List.mem_map] at h
    obtain ⟨e0, he0, heq⟩ := h
    left
    refine ⟨e0, he0, ?_⟩
    by_cases h1 : e0.1 = v
    · simp only [h1, if_true] at heq
      rw [← heq, h1]
    · simp only [h1, if_false] at heq
      rw [← heq]
  · rw [if_neg hc] at h
    rcases List.mem_cons.mp h with h2 | h2
    · exact Or.inr h2
    · exact Or.inl ⟨e, h2, rfl⟩

theorem qContains_qInsertMax_self (q : PQueue) (v : Nat) (p : Rat) :
    qContains (qInsertMax q v p) v = true := by
  unfold qInsertMax
  by_cases hc : qContains q v
  · simp only [hc, if_true]
    obtain ⟨e0, he0, h1⟩ := qContains_iff.mp hc
    refine qContains_iff.mpr ⟨(e0.1, max e0.2 p), List.mem_map.mpr ⟨e0, he0, ?_⟩, h1⟩
    simp [h1]
  · simp only [hc, if_false]
    exact qContains_iff.mpr ⟨(v, p), List.mem_cons_self _ _, rfl⟩

theorem qTop_foldl_mem :
    ∀ (l : PQueue) (b : Option (Nat × Rat)) (e : Nat × Rat),
    l.foldl topStep b = some e → b = some e ∨ e ∈ l := by
  intro l
  induction l with
  | nil => exact fun b e h => Or.inl h
  | cons x xs ih =>
    intro b e h
    rcases ih (topStep b x) e h with h1 | h1
    · cases b with
      | none =>
        simp [topStep] at h1
        exact Or.inr (by simp [h1])
      | some bb =>
        by_cases hlt : bb.2 < x.2
        · simp [topStep, hlt] at h1
          exact Or.inr (by simp [h1])
        · simp [topStep, hlt] at h1
          exact Or.inl (by simp [h1])
    · exact Or.inr (List.mem_cons_of_mem _ h1)

theorem qTop_mem {q : PQueue} {e : Nat × Rat} (h : qTop q = some e) :
    e ∈ q := by
  rcases qTop_foldl_mem q none e h with h1 | h1
  · cases h1
  · exact h1

/-! ### Root-selection (`get_top`) invariants -/

/-- What one can say about an accumulator of the `get_top` probing loop
over the initial state `s`: unchanged as long as nothing was found, and
otherwise different from `s` only by removals from the shard queues and by
`lastqid`, with the found entry coming from one of the original queues. -/
def TopOutcome (s : SState) (acc : Option (Nat × Rat) × SState) : Prop :=
  (acc.1 = none → acc.2 = s) ∧
  (∀ i e, e ∈ acc.2.pqueues.getD i [] → e ∈ s.pqueues.getD i []) ∧
  acc.2.pqueues.length = s.pqueues.length ∧
  acc.2.activeSet = s.activeSet ∧
  acc.2.splashes = s.splashes ∧
  acc.2.splashIdx = s.splashIdx ∧
  acc.2.aborted = s.aborted ∧
  acc.2.jobs = s.jobs ∧
  (∀ vp, acc.1 = some vp → ∃ i, vp ∈ s.pqueues.getD i [])

theorem tryShard_outcome {s : SState} {acc : Option (Nat × Rat) × SState}
    (cpu j : Nat) (h : TopOutcome s acc) :
    TopOutcome s (tryShard cpu j acc) := by
  obtain ⟨a1, a2⟩ := acc
  obtain ⟨h0, h1, h2, h3, h4, h5, h6, h7, h8⟩ := h
  cases a1 with
  | some r =>
    have hred : tryShard cpu j (some r, a2) = (some r, a2) := rfl
    rw [hred]
    exact ⟨(fun hn => nomatch hn), h1, h2, h3, h4, h5, h6, h7,
      fun vp hvp => h8 vp hvp⟩
  | none =>
    have hs : a2 = s := h0 rfl
    cases htop : qTop (a2.pqueues.getD (cpu * queue_multiple + j) []) with
    | none =>
      have hred : tryShard cpu j (none, a2) = (none, a2) := by
        simp only [tryShard, htop]
      rw [hred]
      exact ⟨h0, h1, h2, h3, h4, h5, h6, h7, (fun vp hvp => nomatch hvp)⟩
    | some vp =>
      have hmem : vp ∈ s.pqueues.getD (cpu * queue_multiple + j) [] := by
        rw [← hs]; exact qTop_mem htop
      have hred : tryShard cpu j (none, a2) =
          (some vp,
           { a2 with
             pqueues := a2.pqueues.set (cpu * queue_multiple + j)
               (qRemove (a2.pqueues.getD (cpu * queue_multiple + j) []) vp.1),
             lastqid := a2.lastqid.set cpu (j + 1) }) := by
        simp only [tryShard, htop]
      rw [hred]
      refine ⟨(fun hn => nomatch hn), ?_, ?_, h3, h4, h5, h6, h7, ?_⟩
      · intro i e he
        rcases mem_getD_set he with ⟨rfl, he2⟩ | he2
        · exact h1 _ e (mem_qRemove.mp he2).1
        · exact h1 i e he2
      · simpa [List.length_set] using h2
      · intro vp2 hvp2
        cases hvp2
        exact ⟨cpu * queue_multiple + j, hmem⟩

theorem foldl_tryShard_outcome {s : SState} (cpu : Nat) :
    ∀ (js : List Nat) (acc : Option (Nat × Rat) × SState),
    TopOutcome s acc →
    TopOutcome s (js.foldl (fun a j => tryShard cpu j a) acc) := by
  intro js
  induction js with
  | nil => exact fun acc h => h
  | cons j rest ih =>
    intro acc h
    exact ih (tryShard cpu j acc) (tryShard_outcome cpu j h)

theorem get_top_outcome (s : SState) (cpu : Nat) :
    (∀ i e, e ∈ (get_top s cpu).2.pqueues.getD i [] → e ∈ s.pqueues.getD i []) ∧
    (get_top s cpu).2.pqueues.length = s.pqueues.length ∧
    (get_top s cpu).2.activeSet = s.activeSet ∧
    (get_top s cpu).2.splashes = s.splashes ∧
    (get_top s cpu).2.splashIdx = s.splashIdx ∧
    (get_top s cpu).2.aborted = s.aborted ∧
    (get_top s cpu).2.jobs = s.jobs ∧
    (∀ vp, (get_top s cpu).1 = some vp → ∃ i, vp ∈ s.pqueues.getD i []) := by
  have base : TopOutcome s (none, s) :=
    ⟨fun _ => rfl, fun _ _ h => h, rfl, rfl, rfl, rfl, rfl, rfl,
     fun vp hvp => by cases hvp⟩
  have H := foldl_tryShard_outcome cpu
    (((List.range queue_multiple).map
      fun i => (i + s.lastqid.getD cpu 0) % queue_multiple)) (none, s) base
  obtain ⟨g0, g1, g2, g3, g4, g5, g6, g7, g8⟩ := H
  unfold get_top
  cases hr : (((List.range queue_multiple).map
      fun i => (i + s.lastqid.getD cpu 0) % queue_multiple).foldl
      (fun a j => tryShard cpu j a) (none, s)).1 with
  | none =>
    simp only [hr]
    exact ⟨g1, g2, g3, g4, g5, g6, g7, fun vp hvp => by cases hvp⟩
  | some vp =>
    simp only [hr]
    exact ⟨g1, g2, g3, g4, g5, g6, g7,
      fun vp2 hvp2 => g8 vp2 (by rw [hr]; exact hvp2)⟩

/-! ### BFS-loop invariants -/

theorem bfsLoop_shrink (cfg : Config) :
    ∀ (fuel : Nat) (splash visited bq : List Nat) (swork : Nat)
      (pqs : List PQueue),
    (∀ i e, e ∈ (bfsLoop cfg fuel splash visited bq swork pqs).2.getD i [] →
       e ∈ pqs.getD i []) ∧
    (bfsLoop cfg fuel splash visited bq swork pqs).2.length = pqs.length := by
  intro fuel
  induction fuel with
  | zero =>
    intro splash visited bq swork pqs
    exact ⟨fun i e he => he, rfl⟩
  | succ fuel ih =>
    intro splash visited bq swork pqs
    by_cases hw : swork < cfg.splashSize
    · cases bq with
      | nil =>
        simp only [bfsLoop, if_pos hw]
        exact ⟨fun i e he => he, trivial⟩
      | cons v rest =>
        by_cases hv : cfg.splashSize < work cfg.g v + swork
        · simp only [bfsLoop, if_pos hw, if_pos hv]
          exact ih splash visited rest swork pqs
        · by_cases hq : qContains (pqs.getD (vmap cfg v) []) v
          · simp only [bfsLoop, if_pos hw, if_neg hv, if_pos hq]
            have H := ih (splash ++ [v])
              (enqueueFresh visited rest (cfg.shuffle (cfg.g.inNbrs v))).1
              (enqueueFresh visited rest (cfg.shuffle (cfg.g.inNbrs v))).2
              (swork + work cfg.g v)
              (pqs.set (vmap cfg v) (qRemove (pqs.getD (vmap cfg v) []) v))
            refine ⟨fun i e he => ?_, ?_⟩
            · rcases mem_getD_set (H.1 i e he) with ⟨rfl, he2⟩ | he2
              · exact (mem_qRemove.mp he2).1
              · exact he2
            · rw [H.2, List.length_set]
          · simp only [bfsLoop, if_pos hw, if_neg hv, if_neg hq]
            exact ih splash visited rest swork pqs
    · simp only [bfsLoop, if_neg hw]
      exact ⟨fun i e he => he, trivial⟩

theorem bfsLoop_noRun (cfg : Config) (fuel : Nat)
    (splash visited bq : List Nat) (swork : Nat) (pqs : List PQueue)
    (h : cfg.splashSize ≤ swork) :
    bfsLoop cfg fuel splash visited bq swork pqs = (splash, pqs) := by
  cases fuel with
  | zero => rfl
  | succ fuel =>
    have hw : ¬ swork < cfg.splashSize := Nat.not_lt.mpr h
    simp only [bfsLoop, if_neg hw]

theorem bfsLoop_work (cfg : Config) :
    ∀ (fuel : Nat) (splash visited bq : List Nat) (swork : Nat)
      (pqs : List PQueue),
    (splash.map (work cfg.g)).sum ≤ swork →
    (((bfsLoop cfg fuel splash visited bq swork pqs).1).map (work cfg.g)).sum
      ≤ max swork cfg.splashSize := by
  intro fuel
  induction fuel with
  | zero =>
    intro splash visited bq swork pqs h
    exact le_trans h (le_max_left _ _)
  | succ fuel ih =>
    intro splash visited bq swork pqs h
    by_cases hw : swork < cfg.splashSize
    · cases bq with
      | nil =>
        simp only [bfsLoop, if_pos hw]
        exact le_trans h (le_max_left _ _)
      | cons v rest =>
        by_cases hv : cfg.splashSize < work cfg.g v + swork
        · simp only [bfsLoop, if_pos hw, if_pos hv]
          exact ih splash visited rest swork pqs h
        · by_cases hq : qContains (pqs.getD (vmap cfg v) []) v
          · simp only [bfsLoop, if_pos hw, if_neg hv, if_pos hq]
            have hsum :
                ((splash ++ [v]).map (work cfg.g)).sum ≤ swork + work cfg.g v := by
              rw [List.map_append, List.sum_append]
              simp only [List.map_cons, List.map_nil, List.sum_cons,
                List.sum_nil]
              omega
            have H := ih (splash ++ [v])
              (enqueueFresh visited rest (cfg.shuffle (cfg.g.inNbrs v))).1
              (enqueueFresh visited rest (cfg.shuffle (cfg.g.inNbrs v))).2
              (swork + work cfg.g v)
              (pqs.set (vmap cfg v) (qRemove (pqs.getD (vmap cfg v) []) v))
              hsum
            refine le_trans H (max_le ?_ (le_max_right _ _))
            have hle : swork + work cfg.g v ≤ cfg.splashSize := by omega
            exact le_trans hle (le_max_right _ _)
          · simp only [bfsLoop, if_pos hw, if_neg hv, if_neg hq]
            exact ih splash visited rest swork pqs h
    · simp only [bfsLoop, if_neg hw]
      exact le_trans h (le_max_left _ _)

/-! ### Rebuild invariants -/

theorem rebuild_outcome (cfg : Config) (fuel : Nat) (s : SState) (cpu : Nat) :
    (∀ i e, e ∈ (rebuild_splash cfg fuel s cpu).pqueues.getD i [] →
       e ∈ s.pqueues.getD i []) ∧
    (rebuild_splash cfg fuel s cpu).pqueues.length = s.pqueues.length ∧
    (rebuild_splash cfg fuel s cpu).activeSet = s.activeSet ∧
    (rebuild_splash cfg fuel s cpu).aborted = s.aborted ∧
    (rebuild_splash cfg fuel s cpu).jobs = s.jobs := by
  obtain ⟨g1, g2, g3, g4, g5, g6, g7, g8⟩ :=
    get_top_outcome (clearSplash s cpu) cpu
  unfold rebuild_splash build_forward
  cases htop : (get_top (clearSplash s cpu) cpu).1 with
  | none =>
    simp only [htop]
    exact ⟨g1, g2, g3, g6, g7⟩
  | some rp =>
    obtain ⟨root, rp2⟩ := rp
    simp only [htop]
    have B := bfsLoop_shrink cfg fuel [root]
      (root :: cfg.shuffle (cfg.g.inNbrs root))
      (cfg.shuffle (cfg.g.inNbrs root))
      (if 1 < rp2 then cfg.splashSize else work cfg.g root)
      (get_top (clearSplash s cpu) cpu).2.pqueues
    refine ⟨?_, ?_, g3, g6, g7⟩
    · intro i e he
      exact g1 i e (B.1 i e he)
    · rw [B.2, g2]
      rfl

theorem rebuild_splashIdx (cfg : Config) (fuel : Nat) (s : SState)
    (cpu : Nat) :
    (rebuild_splash cfg fuel s cpu).splashIdx = s.splashIdx.set cpu 0 := by
  obtain ⟨g1, g2, g3, g4, g5, g6, g7, g8⟩ :=
    get_top_outcome (clearSplash s cpu) cpu
  unfold rebuild_splash build_forward
  cases htop : (get_top (clearSplash s cpu) cpu).1 with
  | none => simp only [htop]; exact g5
  | some rp =>
    obtain ⟨root, rp2⟩ := rp
    simp only [htop]
    exact g5

theorem rebuild_splashes (cfg : Config) (fuel : Nat) (s : SState) (cpu : Nat)
    (hcpu : cpu < s.splashes.length) :
    (rebuild_splash cfg fuel s cpu).splashes.getD cpu [] =
      palindromize (build_forward cfg fuel s cpu).1 := by
  obtain ⟨g1, g2, g3, g4, g5, g6, g7, g8⟩ :=
    get_top_outcome (clearSplash s cpu) cpu
  have hlen : (build_forward cfg fuel s cpu).2.splashes.length =
      s.splashes.length := by
    unfold build_forward
    cases htop : (get_top (clearSplash s cpu) cpu).1 with
    | none =>
      simp only [htop]
      rw [g4]
      simp [clearSplash, List.length_set]
    | some rp =>
      obtain ⟨root, rp2⟩ := rp
      simp only [htop]
      rw [g4]
      simp [clearSplash, List.length_set]
  unfold rebuild_splash
  exact getD_set_lt_idx _ (by rw [hlen]; exact hcpu) _ _

/-! ### goodState preservation -/

theorem not_mem_getD_ge {l : List PQueue} {i : Nat} (h : l.length ≤ i)
    {e : Nat × Rat} (he : e ∈ l.getD i []) : False := by
  rw [List.getD_eq_getElem?_getD, List.getElem?_eq_none h] at he
  simp at he

theorem mem_getD_set2 {l : List PQueue} {j i : Nat} {q : PQueue}
    {e : Nat × Rat} (h : e ∈ (l.set j q).getD i []) :
    (i = j ∧ e ∈ q) ∨ (i ≠ j ∧ e ∈ l.getD i []) := by
  by_cases hij : i = j
  · subst hij
    by_cases hl : i < l.length
    · rw [getD_set_lt_idx _ hl] at h
      exact Or.inl ⟨rfl, h⟩
    · exact absurd (not_mem_getD_ge (by rw [List.length_set]; omega) h) not_false
  · rw [getD_set_ne_idx _ (fun hc => hij hc.symm)] at h
    exact Or.inr ⟨hij, h⟩

theorem goodState_of_sub {cfg : Config} {s s1 : SState} (h : goodState cfg s)
    (hsub : ∀ i e, e ∈ s1.pqueues.getD i [] → e ∈ s.pqueues.getD i [])
    (hlen : s1.pqueues.length = s.pqueues.length)
    (hact : s1.activeSet = s.activeSet) : goodState cfg s1 := by
  obtain ⟨h1, h2, h3⟩ := h
  refine ⟨by rw [hact]; exact h1, by rw [hlen]; exact h2, ?_⟩
  intro i e he
  obtain ⟨p1, p2, p3⟩ := h3 i e (hsub i e he)
  exact ⟨p1, p2, by rw [hact]; exact p3⟩

theorem goodState_init (cfg : Config) : goodState cfg (initState cfg) := by
  refine ⟨by simp [initState], by simp [initState], ?_⟩
  intro i e he
  exfalso
  simp only [initState] at he
  rw [List.getD_eq_getElem?_getD, List.getElem?_replicate] at he
  by_cases hi : i < cfg.ncpus * queue_multiple
  · rw [if_pos hi] at he
    simp at he
  · rw [if_neg hi] at he
    simp at he

theorem goodState_add (cfg : Config) {s : SState} (v : Nat) (p : Rat)
    (h : goodState cfg s) (hv : v < cfg.g.numVertices) :
    goodState cfg (add_task cfg s v p) := by
  obtain ⟨h1, h2, h3⟩ := h
  have hvlen : v < s.activeSet.length := by rw [h1]; exact hv
  by_cases hcond : (! s.activeSet.getD v false ||
      qContains (s.pqueues.getD (vmap cfg v) []) v) = true
  · simp only [add_task, hcond, if_true]
    refine ⟨by rw [List.length_set]; exact h1,
            by rw [List.length_set]; exact h2, ?_⟩
    intro i e he
    rcases mem_getD_set2 he with ⟨rfl, he2⟩ | ⟨hne, he2⟩
    · rcases mem_qInsertMax he2 with ⟨e0, he0, heq⟩ | rfl
      · obtain ⟨p1, p2, p3⟩ := h3 _ e0 he0
        refine ⟨by rw [heq]; exact p1, by rw [heq]; exact p2, ?_⟩
        by_cases hev : e.1 = v
        · rw [hev, getD_set_lt_idx _ hvlen]
        · rw [getD_set_ne_idx _ (fun hc => hev hc.symm)]
          rw [heq]; exact p3
      · exact ⟨hv, rfl, by rw [getD_set_lt_idx _ hvlen]⟩
    · obtain ⟨p1, p2, p3⟩ := h3 i e he2
      refine ⟨p1, p2, ?_⟩
      by_cases hev : e.1 = v
      · rw [hev, getD_set_lt_idx _ hvlen]
      · rw [getD_set_ne_idx _ (fun hc => hev hc.symm)]
        exact p3
  · simp only [add_task, hcond, Bool.false_eq_true, if_false]
    refine ⟨by rw [List.length_set]; exact h1, h2, ?_⟩
    intro i e he
    obtain ⟨p1, p2, p3⟩ := h3 i e he
    refine ⟨p1, p2, ?_⟩
    by_cases hev : e.1 = v
    · rw [hev, getD_set_lt_idx _ hvlen]
    · rw [getD_set_ne_idx _ (fun hc => hev hc.symm)]
      exact p3

theorem goodState_rebuild (cfg : Config) (fuel : Nat) {s : SState} (cpu : Nat)
    (h : goodState cfg s) : goodState cfg (rebuild_splash cfg fuel s cpu) := by
  obtain ⟨r1, r2, r3, r4, r5⟩ := rebuild_outcome cfg fuel s cpu
  exact goodState_of_sub h r1 r2 r3

theorem goodState_scanStep (cfg : Config) {s : SState} (cpu : Nat)
    (h : goodState cfg s) : goodState cfg (scanStep cfg s cpu) := by
  obtain ⟨h1, h2, h3⟩ := h
  refine ⟨by simp only [scanStep]; rw [List.length_set]; exact h1,
          by simp only [scanStep]; rw [List.length_set]; exact h2, ?_⟩
  intro i e he
  simp only [scanStep] at he ⊢
  rcases mem_getD_set2 he with ⟨rfl, he2⟩ | ⟨hne, he2⟩
  · obtain ⟨hein, hnev⟩ := mem_qRemove.mp he2
    obtain ⟨p1, p2, p3⟩ := h3 _ e hein
    refine ⟨p1, p2, ?_⟩
    rw [getD_set_ne_idx _ (fun hc => hnev hc.symm)]
    exact p3
  · obtain ⟨p1, p2, p3⟩ := h3 i e he2
    refine ⟨p1, p2, ?_⟩
    by_cases hev :
        e.1 = (s.splashes.getD cpu []).getD (s.splashIdx.getD cpu 0) 0
    · exact absurd (by rw [← p2, hev]) hne
    · rw [getD_set_ne_idx _ (fun hc => hev hc.symm)]
      exact p3

theorem goodState_scan (cfg : Config) :
    ∀ (fuel : Nat) (s : SState) (cpu : Nat), goodState cfg s →
    goodState cfg (scanSplash cfg s cpu fuel).2 := by
  intro fuel
  induction fuel with
  | zero => exact fun s cpu h => h
  | succ fuel ih =>
    intro s cpu h
    by_cases hidx : s.splashIdx.getD cpu 0 < (s.splashes.getD cpu []).length
    · by_cases hws : s.activeSet.getD
          ((s.splashes.getD cpu []).getD (s.splashIdx.getD cpu 0) 0) false = true
      · simp only [scanSplash, if_pos hidx, hws, if_true]
        exact goodState_scanStep cfg cpu h
      · simp only [scanSplash, if_pos hidx, hws, if_false]
        exact ih (scanStep cfg s cpu) cpu (goodState_scanStep cfg cpu h)
    · simp only [scanSplash, if_neg hidx]
      exact h

theorem goodState_next (cfg : Config) (bf : Nat) :
    ∀ (fuel : Nat) (s : SState) (cpu : Nat), goodState cfg s →
    goodState cfg (next_task_from_splash cfg bf fuel s cpu).2 := by
  intro fuel
  induction fuel with
  | zero => exact fun s cpu h => h
  | succ fuel ih =>
    intro s cpu h
    by_cases hab : s.aborted = true
    · simp only [next_task_from_splash, hab, if_true]
      exact h
    · simp only [next_task_from_splash, hab, if_false]
      by_cases hreb : (s.splashes.getD cpu []).length ≤ s.splashIdx.getD cpu 0
      · simp only [if_pos hreb]
        have hgr : goodState cfg (rebuild_splash cfg bf s cpu) :=
          goodState_rebuild cfg bf cpu h
        by_cases hend : ((rebuild_splash cfg bf s cpu).splashes.getD cpu []).length ≤
            (rebuild_splash cfg bf s cpu).splashIdx.getD cpu 0
        · simp only [if_pos hend]
          exact hgr
        · simp only [if_neg hend]
          cases hsc : (scanSplash cfg (rebuild_splash cfg bf s cpu) cpu
              (((rebuild_splash cfg bf s cpu).splashes.getD cpu []).length -
                (rebuild_splash cfg bf s cpu).splashIdx.getD cpu 0)).1 with
          | some v =>
            simp only [hsc]
            exact goodState_scan cfg _ _ cpu hgr
          | none =>
            simp only [hsc]
            exact ih _ cpu (goodState_scan cfg _ _ cpu hgr)
      · simp only [if_neg hreb]
        cases hsc : (scanSplash cfg s cpu
            ((s.splashes.getD cpu []).length - s.splashIdx.getD cpu 0)).1 with
        | some v =>
          simp only [hsc]
          exact goodState_scan cfg _ _ cpu h
        | none =>
          simp only [hsc]
          exact ih _ cpu (goodState_scan cfg _ _ cpu h)

theorem goodState_abort {cfg : Config} {s : SState} (h : goodState cfg s) :
    goodState cfg (abortSched s) := h

theorem goodState_restart {cfg : Config} {s : SState} (h : goodState cfg s) :
    goodState cfg (restartSched s) := h

theorem goodState_foldl_rebuild (cfg : Config) (bf : Nat) :
    ∀ (l : List Nat) (s : SState), goodState cfg s →
    goodState cfg (l.foldl (fun st i => rebuild_splash cfg bf st i) s) := by
  intro l
  induction l with
  | nil => exact fun s h => h
  | cons x xs ih =>
    intro s h
    exact ih (rebuild_splash cfg bf s x) (goodState_rebuild cfg bf x h)

theorem goodState_start (cfg : Config) (bf : Nat) {s : SState}
    (h : goodState cfg s) : goodState cfg (startSched cfg bf s) :=
  goodState_foldl_rebuild cfg bf (List.range cfg.ncpus) s h

theorem goodState_addAll (cfg : Config) {s : SState} (p : Rat)
    (h : goodState cfg s) : goodState cfg (add_task_to_all cfg s p) := by
  unfold add_task_to_all
  have : ∀ (l : List Nat) (s : SState), (∀ x ∈ l, x < cfg.g.numVertices) →
      goodState cfg s →
      goodState cfg (l.foldl (fun st v => add_task cfg st v p) s) := by
    intro l
    induction l with
    | nil => exact fun s _ h => h
    | cons x xs ih =>
      intro s hl h
      exact ih (add_task cfg s x p)
        (fun y hy => hl y (List.mem_cons_of_mem _ hy))
        (goodState_add cfg x p h (hl x (List.mem_cons_self _ _)))
  exact this (List.range cfg.g.numVertices) s
    (fun x hx => List.mem_range.mp hx) h

theorem reachable_good {cfg : Config} {s : SState} (h : Reachable cfg s) :
    goodState cfg s := by
  induction h with
  | init => exact goodState_init cfg
  | add v p _ hv ih => exact goodState_add cfg v p ih hv
  | addAll p _ ih => exact goodState_addAll cfg p ih
  | next bf f cpu _ ih => exact goodState_next cfg bf f _ cpu ih
  | ab _ ih => exact goodState_abort ih
  | rst _ ih => exact goodState_restart ih
  | strt bf _ ih => exact goodState_start cfg bf ih

/-! ### Active-set bit transitions -/

theorem bit_false_persists {l : List Bool} {v : Nat} (u : Nat)
    (h : l.getD v false = false) : (l.set u false).getD v false = false := by
  by_cases huv : u = v
  · subst huv
    by_cases hl : u < l.length
    · rw [getD_set_lt_idx _ hl]
    · rw [List.set_eq_of_length_le (Nat.le_of_not_lt hl)]
      exact h
  · rw [getD_set_ne_idx _ huv]
    exact h

theorem bit_true_of_set_false {l : List Bool} {u w : Nat}
    (h : (l.set u false).getD w false = true) :
    l.getD w false = true ∧ w ≠ u := by
  by_cases hwu : w = u
  · subst hwu
    exfalso
    by_cases hl : w < l.length
    · rw [getD_set_lt_idx _ hl] at h
      cases h
    · rw [List.set_eq_of_length_le (Nat.le_of_not_lt hl)] at h
      rw [List.getD_eq_getElem?_getD,
        List.getElem?_eq_none (Nat.le_of_not_lt hl)] at h
      cases h
  · rw [getD_set_ne_idx _ (fun hc => hwu hc.symm)] at h
    exact ⟨h, hwu⟩

theorem getD_true_lt {l : List Bool} {u : Nat} (h : l.getD u false = true) :
    u < l.length := by
  by_contra hl
  rw [List.getD_eq_getElem?_getD,
    List.getElem?_eq_none (Nat.le_of_not_lt hl)] at h
  cases h

theorem set_false_getD_self {l : List Bool} {u : Nat} (hu : u < l.length) :
    (l.set u false).getD u false = false :=
  getD_set_lt_idx _ hu _ _

theorem scanStep_activeSet (cfg : Config) (s : SState) (cpu : Nat) :
    (scanStep cfg s cpu).activeSet =
      s.activeSet.set
        ((s.splashes.getD cpu []).getD (s.splashIdx.getD cpu 0) 0) false := rfl

theorem scan_bit_false (cfg : Config) :
    ∀ (fuel : Nat) (s : SState) (cpu v : Nat),
    s.activeSet.getD v false = false →
    (scanSplash cfg s cpu fuel).1 ≠ some v ∧
    (scanSplash cfg s cpu fuel).2.activeSet.getD v false = false := by
  intro fuel
  induction fuel with
  | zero => exact fun s cpu v h => ⟨(fun hc => nomatch hc), h⟩
  | succ fuel ih =>
    intro s cpu v h
    by_cases hidx : s.splashIdx.getD cpu 0 < (s.splashes.getD cpu []).length
    · by_cases hws : s.activeSet.getD
          ((s.splashes.getD cpu []).getD (s.splashIdx.getD cpu 0) 0) false = true
      · simp only [scanSplash, if_pos hidx, hws, if_true]
        constructor
        · intro hc
          injection hc with hc
          rw [hc, h] at hws
          cases hws
        · rw [scanStep_activeSet]
          exact bit_false_persists _ h
      · simp only [scanSplash, if_pos hidx, hws, if_false]
        refine ih (scanStep cfg s cpu) cpu v ?_
        rw [scanStep_activeSet]
        exact bit_false_persists _ h
    · simp only [scanSplash, if_neg hidx]
      exact ⟨(fun hc => nomatch hc), h⟩

theorem scan_some (cfg : Config) :
    ∀ (fuel : Nat) (s : SState) (cpu w : Nat),
    (scanSplash cfg s cpu fuel).1 = some w →
    s.activeSet.getD w false = true ∧
    (scanSplash cfg s cpu fuel).2.activeSet.getD w false = false := by
  intro fuel
  induction fuel with
  | zero => exact fun s cpu w h => nomatch h
  | succ fuel ih =>
    intro s cpu w h
    by_cases hidx : s.splashIdx.getD cpu 0 < (s.splashes.getD cpu []).length
    · by_cases hws : s.activeSet.getD
          ((s.splashes.getD cpu []).getD (s.splashIdx.getD cpu 0) 0) false = true
      · simp only [scanSplash, if_pos hidx, hws, if_true] at h ⊢
        injection h with h
        subst h
        refine ⟨hws, ?_⟩
        rw [scanStep_activeSet]
        exact set_false_getD_self (getD_true_lt hws)
      · simp only [scanSplash, if_pos hidx, hws, if_false] at h ⊢
        obtain ⟨hb, hafter⟩ := ih (scanStep cfg s cpu) cpu w h
        rw [scanStep_activeSet] at hb
        exact ⟨(bit_true_of_set_false hb).1, hafter⟩
    · simp only [scanSplash, if_neg hidx] at h
      cases h

theorem rebuild_activeSet (cfg : Config) (bf : Nat) (s : SState) (cpu : Nat) :
    (rebuild_splash cfg bf s cpu).activeSet = s.activeSet :=
  (rebuild_outcome cfg bf s cpu).2.2.1

theorem next_bit_false (cfg : Config) (bf : Nat) :
    ∀ (fuel : Nat) (s : SState) (cpu v : Nat),
    s.activeSet.getD v false = false →
    (next_task_from_splash cfg bf fuel s cpu).1 ≠ some (SStatus.NewTask v) ∧
    (next_task_from_splash cfg bf fuel s cpu).2.activeSet.getD v false = false := by
  intro fuel
  induction fuel with
  | zero => exact fun s cpu v h => ⟨(fun hc => nomatch hc), h⟩
  | succ fuel ih =>
    intro s cpu v h
    by_cases hab : s.aborted = true
    · simp only [next_task_from_splash, hab, if_true]
      exact ⟨(fun hc => nomatch hc), h⟩
    · simp only [next_task_from_splash, hab, if_false]
      by_cases hreb : (s.splashes.getD cpu []).length ≤ s.splashIdx.getD cpu 0
      · simp only [if_pos hreb]
        have h1 : (rebuild_splash cfg bf s cpu).activeSet.getD v false = false := by
          rw [rebuild_activeSet]
          exact h
        by_cases hend : ((rebuild_splash cfg bf s cpu).splashes.getD cpu []).length ≤
            (rebuild_splash cfg bf s cpu).splashIdx.getD cpu 0
        · simp only [if_pos hend]
          exact ⟨(fun hc => nomatch hc), h1⟩
        · simp only [if_neg hend]
          have S := scan_bit_false cfg
            (((rebuild_splash cfg bf s cpu).splashes.getD cpu []).length -
              (rebuild_splash cfg bf s cpu).splashIdx.getD cpu 0)
            (rebuild_splash cfg bf s cpu) cpu v h1
          cases hsc : (scanSplash cfg (rebuild_splash cfg bf s cpu) cpu
              (((rebuild_splash cfg bf s cpu).splashes.getD cpu []).length -
                (rebuild_splash cfg bf s cpu).splashIdx.getD cpu 0)).1 with
          | some u =>
            simp only [hsc]
            refine ⟨?_, S.2⟩
            intro hc
            injection hc with hc2
            injection hc2 with hc3
            exact S.1 (by rw [hsc, hc3])
          | none =>
            simp only [hsc]
            exact ih _ cpu v S.2
      · simp only [if_neg hreb]
        have S := scan_bit_false cfg
          ((s.splashes.getD cpu []).length - s.splashIdx.getD cpu 0) s cpu v h
        cases hsc : (scanSplash cfg s cpu
            ((s.splashes.getD cpu []).length - s.splashIdx.getD cpu 0)).1 with
        | some u =>
          simp only [hsc]
          refine ⟨?_, S.2⟩
          intro hc
          injection hc with hc2
          injection hc2 with hc3
          exact S.1 (by rw [hsc, hc3])
        | none =>
          simp only [hsc]
          exact ih _ cpu v S.2

theorem next_some_post (cfg : Config) (bf : Nat) :
    ∀ (fuel : Nat) (s : SState) (cpu w : Nat),
    (next_task_from_splash cfg bf fuel s cpu).1 = some (SStatus.NewTask w) →
    (next_task_from_splash cfg bf fuel s cpu).2.activeSet.getD w false = false := by
  intro fuel
  induction fuel with
  | zero => exact fun s cpu w h => nomatch h
  | succ fuel ih =>
    intro s cpu w h
    by_cases hab : s.aborted = true
    · simp only [next_task_from_splash, hab, if_true] at h ⊢
      injection h with h2
      cases h2
    · simp only [next_task_from_splash, hab, if_false] at h ⊢
      by_cases hreb : (s.splashes.getD cpu []).length ≤ s.splashIdx.getD cpu 0
      · simp only [if_pos hreb] at h ⊢
        by_cases hend : ((rebuild_splash cfg bf s cpu).splashes.getD cpu []).length ≤
            (rebuild_splash cfg bf s cpu).splashIdx.getD cpu 0
        · simp only [if_pos hend] at h
          injection h with h2
          cases h2
        · simp only [if_neg hend] at h ⊢
          cases hsc : (scanSplash cfg (rebuild_splash cfg bf s cpu) cpu
              (((rebuild_splash cfg bf s cpu).splashes.getD cpu []).length -
                (rebuild_splash cfg bf s cpu).splashIdx.getD cpu 0)).1 with
          | some u =>
            simp only [hsc] at h ⊢
            injection h with h2
            injection h2 with h3
            rw [h3] at hsc
            exact (scan_some cfg _ _ cpu w hsc).2
          | none =>
            simp only [hsc] at h ⊢
            exact ih _ cpu w h
      · simp only [if_neg hreb] at h ⊢
        cases hsc : (scanSplash cfg s cpu
            ((s.splashes.getD cpu []).length - s.splashIdx.getD cpu 0)).1 with
        | some u =>
          simp only [hsc] at h ⊢
          injection h with h2
          injection h2 with h3
          rw [h3] at hsc
          exact (scan_some cfg _ _ cpu w hsc).2
        | none =>
          simp only [hsc] at h ⊢
          exact ih _ cpu w h

theorem next_some_pre (cfg : Config) (bf : Nat) (fuel : Nat) (s : SState)
    (cpu w : Nat)
    (h : (next_task_from_splash cfg bf fuel s cpu).1 = some (SStatus.NewTask w)) :
    s.activeSet.getD w false = true := by
  cases hbit : s.activeSet.getD w false with
  | false => exact absurd h (next_bit_false cfg bf fuel s cpu w hbit).1
  | true => rfl

/-! ### Execution histories -/

theorem add_task_activeSet (cfg : Config) (s : SState) (v : Nat) (p : Rat) :
    (add_task cfg s v p).activeSet = s.activeSet.set v true := by
  by_cases hcond : (! s.activeSet.getD v false ||
      qContains (s.pqueues.getD (vmap cfg v) []) v) = true
  · simp only [add_task, hcond, if_true]
  · simp only [add_task, hcond, Bool.false_eq_true, if_false]

theorem foldl_rebuild_activeSet (cfg : Config) (bf : Nat) :
    ∀ (l : List Nat) (s : SState),
    (l.foldl (fun st i => rebuild_splash cfg bf st i) s).activeSet =
      s.activeSet := by
  intro l
  induction l with
  | nil => exact fun s => rfl
  | cons x xs ih =>
    intro s
    rw [List.foldl_cons, ih, rebuild_activeSet]

theorem stepOp_bit_false {cfg : Config} {s : SState} {v : Nat} (op : Op)
    (hop : addsVertex v op = false)
    (h : s.activeSet.getD v false = false) :
    (stepOp cfg s op).1.activeSet.getD v false = false ∧
    (stepOp cfg s op).2 ≠ some v := by
  cases op with
  | add w p =>
    have hwv : w ≠ v := by
      intro hc
      rw [hc] at hop
      simp [addsVertex] at hop
    refine ⟨?_, (fun hc => nomatch hc)⟩
    show (add_task cfg s w p).activeSet.getD v false = false
    rw [add_task_activeSet, getD_set_ne_idx _ hwv]
    exact h
  | getNext cpu bf nf =>
    have N := next_bit_false cfg bf nf s cpu v h
    simp only [stepOp]
    cases hr : (next_task_from_splash cfg bf nf s cpu).1 with
    | some st =>
      cases st with
      | NewTask u =>
        simp only [hr]
        refine ⟨N.2, ?_⟩
        intro hc
        injection hc with hc
        rw [hc] at hr
        exact N.1 hr
      | Waiting =>
        simp only [hr]
        exact ⟨N.2, (fun hc => nomatch hc)⟩
    | none =>
      simp only [hr]
      exact ⟨N.2, (fun hc => nomatch hc)⟩
  | doAbort => exact ⟨h, (fun hc => nomatch hc)⟩
  | doRestart => exact ⟨h, (fun hc => nomatch hc)⟩
  | doStart bf =>
    refine ⟨?_, (fun hc => nomatch hc)⟩
    show (startSched cfg bf s).activeSet.getD v false = false
    unfold startSched
    rw [foldl_rebuild_activeSet]
    exact h

theorem stepOp_some_bit {cfg : Config} {s : SState} {op : Op} {u : Nat}
    (h : (stepOp cfg s op).2 = some u) :
    (stepOp cfg s op).1.activeSet.getD u false = false := by
  cases op with
  | add w p => exact nomatch h
  | getNext cpu bf nf =>
    simp only [stepOp] at h ⊢
    cases hr : (next_task_from_splash cfg bf nf s cpu).1 with
    | some st =>
      cases st with
      | NewTask w =>
        simp only [hr] at h ⊢
        injection h with h
        rw [h] at hr
        exact next_some_post cfg bf nf s cpu u hr
      | Waiting =>
        simp only [hr] at h
        exact nomatch h
    | none =>
      simp only [hr] at h
      exact nomatch h
  | doAbort => exact nomatch h
  | doRestart => exact nomatch h
  | doStart bf => exact nomatch h

theorem runOps_cons (cfg : Config) (s : SState) (op : Op) (rest : List Op) :
    runOps cfg s (op :: rest) =
      (stepOp cfg s op).2.toList ++ runOps cfg (stepOp cfg s op).1 rest := rfl

theorem runOps_count_zero (cfg : Config) :
    ∀ (ops : List Op) (s : SState) (v : Nat),
    ops.all (fun op => !(addsVertex v op)) = true →
    s.activeSet.getD v false = false →
    (runOps cfg s ops).count v = 0 := by
  intro ops
  induction ops with
  | nil => exact fun s v _ _ => rfl
  | cons op rest ih =>
    intro s v hall h
    have hop : addsVertex v op = false := by
      have h1 := (List.all_eq_true.mp hall) op (List.mem_cons_self _ _)
      simpa using h1
    have hrest : rest.all (fun o => !(addsVertex v o)) = true := by
      rw [List.all_eq_true] at hall ⊢
      exact fun o ho => hall o (List.mem_cons_of_mem _ ho)
    obtain ⟨hb, hd⟩ := @stepOp_bit_false cfg s v op hop h
    rw [runOps_cons, List.count_append, ih _ v hrest hb, Nat.add_zero]
    cases hd2 : (stepOp cfg s op).2 with
    | none => rfl
    | some u =>
      have huv : u ≠ v := fun hc => hd (by rw [hd2, hc])
      simp [List.count_singleton, huv]
/-! ### Palindrome shape and work bound -/

theorem palindromize_length {fwd : List Nat} (h : 1 < fwd.length) :
    (palindromize fwd).length = 2 * fwd.length - 1 := by
  rw [palindromize, if_pos h, List.length_append, List.length_reverse,
    List.length_drop]
  omega

theorem pal_get_lt {fwd : List Nat} (h : 1 < fwd.length) {i : Nat}
    (hi : i < fwd.length) :
    (palindromize fwd)[i]? = fwd[fwd.length - 1 - i]? := by
  rw [palindromize, if_pos h, List.getElem?_append,
    if_pos (by rw [List.length_reverse]; exact hi)]
  exact List.getElem?_reverse hi

theorem pal_get_ge {fwd : List Nat} (h : 1 < fwd.length) {i : Nat}
    (hge : fwd.length ≤ i) :
    (palindromize fwd)[i]? = fwd[i - (fwd.length - 1)]? := by
  rw [palindromize, if_pos h,
    List.getElem?_append_right (by rw [List.length_reverse]; exact hge),
    List.length_reverse, List.getElem?_drop]
  congr 1
  omega

theorem palindromize_palindrome {fwd : List Nat} (h : 1 < fwd.length)
    {i : Nat} (hi : i < 2 * fwd.length - 1) :
    (palindromize fwd)[i]? = (palindromize fwd)[2 * fwd.length - 2 - i]? := by
  rcases Nat.lt_or_ge i (fwd.length - 1) with hc | hc
  · rw [pal_get_lt h (by omega), pal_get_ge h (by omega)]
    congr 1
    omega
  · rcases Nat.lt_or_ge i fwd.length with hc2 | hc2
    · have : 2 * fwd.length - 2 - i = i := by omega
      rw [this]
    · rw [pal_get_ge h (by omega), pal_get_lt h (by omega)]
      congr 1
      omega

theorem palindromize_take {fwd : List Nat} (h : 1 < fwd.length) :
    (palindromize fwd).take fwd.length = fwd.reverse := by
  rw [palindromize, if_pos h, ← List.length_reverse fwd]
  exact List.take_left _ _

theorem palindromize_short {fwd : List Nat} (h : ¬ 1 < fwd.length) :
    palindromize fwd = fwd := by
  rw [palindromize, if_neg h]

theorem palindromize_take_half_sum (f : Nat → Nat) (fwd : List Nat) :
    (((palindromize fwd).take (((palindromize fwd).length + 1) / 2)).map f).sum
      = (fwd.map f).sum := by
  by_cases h : 1 < fwd.length
  · have hl : ((palindromize fwd).length + 1) / 2 = fwd.length := by
      rw [palindromize_length h]
      omega
    rw [hl, palindromize_take h, List.map_reverse, List.sum_reverse]
  · rw [palindromize_short h]
    have : (fwd.length + 1) / 2 = fwd.length := by
      rcases fwd with _ | ⟨a, _ | ⟨b, t⟩⟩
      · simp
      · simp
      · exfalso
        apply h
        simp only [List.length_cons]
        omega
    rw [this, List.take_length]

theorem work_le_maxWork (cfg : Config) {v : Nat} (hv : v < cfg.g.numVertices) :
    work cfg.g v ≤ maxWork cfg :=
  mem_le_foldl_max (List.mem_map.mpr ⟨v, List.mem_range.mpr hv, rfl⟩) 0

theorem build_forward_urgent (cfg : Config) (fuel : Nat) (s : SState)
    (cpu root : Nat) (p : Rat)
    (htop : (get_top (clearSplash s cpu) cpu).1 = some (root, p))
    (hp : 1 < p) :
    (build_forward cfg fuel s cpu).1 = [root] := by
  unfold build_forward
  simp only [htop]
  rw [if_pos hp, bfsLoop_noRun cfg fuel _ _ _ _ _ (le_refl _)]

theorem build_forward_work (cfg : Config) (fuel : Nat) {s : SState} (cpu : Nat)
    (hgood : goodState cfg s) :
    (((build_forward cfg fuel s cpu).1).map (work cfg.g)).sum ≤
      cfg.splashSize + maxWork cfg := by
  obtain ⟨g1, g2, g3, g4, g5, g6, g7, g8⟩ :=
    get_top_outcome (clearSplash s cpu) cpu
  unfold build_forward
  cases htop : (get_top (clearSplash s cpu) cpu).1 with
  | none =>
    simp only [htop]
    simp
  | some rp =>
    obtain ⟨root, p⟩ := rp
    simp only [htop]
    obtain ⟨i, hmem⟩ := g8 (root, p) htop
    have hroot : root < cfg.g.numVertices := (hgood.2.2 i (root, p) hmem).1
    have hw := work_le_maxWork cfg hroot
    by_cases hp : (1 : Rat) < p
    · rw [if_pos hp, bfsLoop_noRun cfg fuel _ _ _ _ _ (le_refl _)]
      simp only [List.map_cons, List.map_nil, List.sum_cons, List.sum_nil]
      omega
    · rw [if_neg hp]
      have B := bfsLoop_work cfg fuel [root]
        (root :: cfg.shuffle (cfg.g.inNbrs root))
        (cfg.shuffle (cfg.g.inNbrs root)) (work cfg.g root)
        (get_top (clearSplash s cpu) cpu).2.pqueues
        (by simp)
      exact le_trans B (max_le (by omega) (by omega))
/-! ### Claim theorems -/

/-- C1: At-most-once delivery per submission cycle.  Along any history of
interface calls that contains no `add_task` for vertex `v`, starting from
any scheduler state, the polls deliver `v` at most once: producing `v`
clears its active-set bit, no other call sets it, and a later occurrence
of `v` (for example the second hit in a palindromic splash buffer) is
suppressed because `clear_bit` finds the bit already clear. -/
theorem C1_at_most_once (cfg : Config) :
    ∀ (ops : List Op) (s : SState) (v : Nat),
    ops.all (fun op => !(addsVertex v op)) = true →
    (runOps cfg s ops).count v ≤ 1 := by
  intro ops
  induction ops with
  | nil =>
    intro s v _
    simp [runOps]
  | cons op rest ih =>
    intro s v hall
    have hop : addsVertex v op = false := by
      have h1 := (List.all_eq_true.mp hall) op (List.mem_cons_self _ _)
      simpa using h1
    have hrest : rest.all (fun o => !(addsVertex v o)) = true := by
      rw [List.all_eq_true] at hall ⊢
      exact fun o ho => hall o (List.mem_cons_of_mem _ ho)
    rw [runOps_cons, List.count_append]
    cases hd : (stepOp cfg s op).2 with
    | none =>
      have h0 : (Option.toList (none : Option Nat)).count v = 0 := rfl
      rw [h0, Nat.zero_add]
      exact ih (stepOp cfg s op).1 v hrest
    | some u =>
      by_cases huv : u = v
      · subst huv
        have hb := @stepOp_some_bit cfg s op u hd
        rw [runOps_count_zero cfg rest (stepOp cfg s op).1 u hrest hb]
        simp [List.count_singleton]
      · have h1 : (Option.toList (some u)).count v = 0 := by
          simp [List.count_singleton, huv]
        rw [h1, Nat.zero_add]
        exact ih (stepOp cfg s op).1 v hrest
/-- Auxiliary: `getD` of a constant-map list is that constant. -/
theorem getD_map_const {α β : Type} (l : List α) (cpu : Nat) (c : β) :
    (l.map (fun _ => c)).getD cpu c = c := by
  rw [List.getD_eq_getElem?_getD, List.getElem?_map]
  cases l[cpu]? <;> rfl

/-- C1 witness: a concrete three-poll history over the two-vertex graph in
which vertex 1 appears twice in the palindromic buffer [1, 0, 1] yet is
delivered at most once. -/
theorem C1_at_most_once_witness :
    ([Op.getNext 0 100 10, Op.getNext 0 100 10, Op.getNext 0 100 10].all
        (fun op => !(addsVertex 1 op)) = true) ∧
    (runOps cfg2 s2a
        [Op.getNext 0 100 10, Op.getNext 0 100 10,
         Op.getNext 0 100 10]).count 1 ≤ 1 :=
  ⟨by decide,
   C1_at_most_once cfg2
     [Op.getNext 0 100 10, Op.getNext 0 100 10, Op.getNext 0 100 10]
     s2a 1 (by decide)⟩

/-- C2 counterexample: on the two-vertex graph with edge 1 → 0, submit
both vertices, drain one task (vertex 1 is delivered; vertex 0 is then
held inside the splash buffer [1, 0, 1] and is in no shard queue), abort
and restart.  The post-restart drain delivers nothing, so the
submitted-but-undelivered vertex 0 is lost, refuting the claim that no
pending work is lost. -/
theorem C2_counterexample :
    (drainCollect cfg2 100 10 1 s2a 0).1 = [1] ∧
    (next_task_from_splash cfg2 100 10 (abortSched s2b) 0).1 =
      some SStatus.Waiting ∧
    (drainCollect cfg2 100 10 10 (restartSched (abortSched s2b)) 0).1 = [] := by
  refine ⟨?_, ?_, ?_⟩ <;> decide

/-- C2 amended: after `abort()` every `next_task_from_splash` poll reports
WAITING, and `restart()` clears every splash buffer and cursor and the
abort flag while leaving the shard queues and the active set untouched —
so tasks still sitting in shard queues survive the abort/restart cycle,
while vertices already captured into a splash buffer are dropped. -/
theorem C2_abort_restart (cfg : Config) (bf f : Nat) (s : SState)
    (cpu : Nat) :
    (next_task_from_splash cfg bf (f + 1) (abortSched s) cpu).1 =
      some SStatus.Waiting ∧
    (restartSched (abortSched s)).pqueues = s.pqueues ∧
    (restartSched (abortSched s)).activeSet = s.activeSet ∧
    (restartSched (abortSched s)).aborted = false ∧
    (restartSched (abortSched s)).splashes.getD cpu [] = [] ∧
    (restartSched (abortSched s)).splashIdx.getD cpu 0 = 0 := by
  have hab : (abortSched s).aborted = true := rfl
  refine ⟨?_, rfl, rfl, rfl, ?_, ?_⟩
  · simp only [next_task_from_splash, hab, if_true]
  · exact getD_map_const _ cpu _
  · exact getD_map_const _ cpu _

/-- C3 counterexample: in the chain-of-5 scenario the first rebuilt splash
is rooted at vertex 0, which has no in-neighbors (edges run i → i+1 and
the BFS expands along in-edges), so the forward order is [0] and the final
buffer is the single-element [0], not a 9-element palindrome covering all
5 vertices. -/
theorem C3_counterexample :
    (build_forward cfgChain 100 sChain 0).1 = [0] ∧
    (rebuild_splash cfgChain 100 sChain 0).splashes.getD 0 [] = [0] ∧
    ((rebuild_splash cfgChain 100 sChain 0).splashes.getD 0 []).length ≠ 9 := by
  refine ⟨?_, ?_, ?_⟩ <;> decide

/-- C3 amended: in the chain-of-5 scenario the first splash contains only
its root (vertex 0 has no in-neighbors), and repeated polling delivers
each of the five vertices exactly once, through five successive
single-vertex splashes, in the order 0, 1, 2, 3, 4. -/
theorem C3_chain_delivery :
    (drainCollect cfgChain 100 10 12 sChain 0).1 = [0, 1, 2, 3, 4] := by
  decide

/-- C4: Splash work bound.  Immediately after `rebuild_splash(w)` from a
reachable state, the sum of `work(v)` over the forward half of the buffer
(its first ⌈len/2⌉ entries, i.e. the reversed forward order) is at most
`splash_size` plus the maximum work of any single vertex — the BFS loop
skips any vertex whose work would push the accumulated total past
`splash_size`. -/
theorem C4_splash_work_bound (cfg : Config) (fuel : Nat) {s : SState}
    (cpu : Nat) (h : Reachable cfg s) (hcpu : cpu < s.splashes.length) :
    ((((rebuild_splash cfg fuel s cpu).splashes.getD cpu []).take
        ((((rebuild_splash cfg fuel s cpu).splashes.getD cpu []).length + 1)
          / 2)).map (work cfg.g)).sum ≤ cfg.splashSize + maxWork cfg := by
  rw [rebuild_splashes cfg fuel s cpu hcpu, palindromize_take_half_sum]
  exact build_forward_work cfg fuel cpu (reachable_good h)

/-- C4 witness: the work bound evaluated on the two-vertex scenario after
both submissions. -/
theorem C4_splash_work_bound_witness :
    ((((rebuild_splash cfg2 100 s2a 0).splashes.getD 0 []).take
        ((((rebuild_splash cfg2 100 s2a 0).splashes.getD 0 []).length + 1)
          / 2)).map (work cfg2.g)).sum ≤ cfg2.splashSize + maxWork cfg2 :=
  C4_splash_work_bound cfg2 100 0
    (Reachable.add 1 1 (Reachable.add 0 1 Reachable.init (by decide))
      (by decide))
    (by decide)

/-- C5: Palindrome shape.  If the pre-reverse (forward) buffer has length
n > 1, the installed buffer has length 2n-1, is an index-wise palindrome,
and its first n entries are the reversed forward order; a forward buffer
of length 0 or 1 is installed unchanged; and the cursor is reset to 0. -/
theorem C5_palindrome_shape (cfg : Config) (fuel : Nat) (s : SState)
    (cpu : Nat) (hcpu : cpu < s.splashes.length) :
    (1 < (build_forward cfg fuel s cpu).1.length →
      ((rebuild_splash cfg fuel s cpu).splashes.getD cpu []).length =
        2 * (build_forward cfg fuel s cpu).1.length - 1 ∧
      (∀ i, i < ((rebuild_splash cfg fuel s cpu).splashes.getD cpu []).length →
        ((rebuild_splash cfg fuel s cpu).splashes.getD cpu []).getD i 0 =
          ((rebuild_splash cfg fuel s cpu).splashes.getD cpu []).getD
            (2 * (build_forward cfg fuel s cpu).1.length - 2 - i) 0) ∧
      ((rebuild_splash cfg fuel s cpu).splashes.getD cpu []).take
          (build_forward cfg fuel s cpu).1.length =
        ((build_forward cfg fuel s cpu).1).reverse) ∧
    ((build_forward cfg fuel s cpu).1.length ≤ 1 →
      (rebuild_splash cfg fuel s cpu).splashes.getD cpu [] =
        (build_forward cfg fuel s cpu).1) ∧
    (rebuild_splash cfg fuel s cpu).splashIdx.getD cpu 0 = 0 := by
  rw [rebuild_splashes cfg fuel s cpu hcpu, rebuild_splashIdx]
  refine ⟨?_, ?_, getD_set_same _ _ _⟩
  · intro hn
    refine ⟨palindromize_length hn, ?_, ?_⟩
    · intro i hi
      rw [palindromize_length hn] at hi
      rw [List.getD_eq_getElem?_getD, List.getD_eq_getElem?_getD,
        palindromize_palindrome hn hi]
    · exact palindromize_take hn
  · intro hn
    exact palindromize_short (by omega)

/-- C5 witness: the palindrome facts evaluated on the two-vertex scenario,
whose forward order is [0, 1] and installed buffer is [1, 0, 1]. -/
theorem C5_palindrome_shape_witness :
    ((rebuild_splash cfg2 100 s2a 0).splashes.getD 0 []).length =
      2 * (build_forward cfg2 100 s2a 0).1.length - 1 ∧
    ((rebuild_splash cfg2 100 s2a 0).splashes.getD 0 []).getD 0 0 =
      ((rebuild_splash cfg2 100 s2a 0).splashes.getD 0 []).getD
        (2 * (build_forward cfg2 100 s2a 0).1.length - 2 - 0) 0 ∧
    ((rebuild_splash cfg2 100 s2a 0).splashes.getD 0 []).take
        (build_forward cfg2 100 s2a 0).1.length =
      ((build_forward cfg2 100 s2a 0).1).reverse ∧
    (rebuild_splash cfg2 100 s2a 0).splashIdx.getD 0 0 = 0 :=
  ⟨((C5_palindrome_shape cfg2 100 s2a 0 (by decide)).1 (by decide)).1,
   ((C5_palindrome_shape cfg2 100 s2a 0 (by decide)).1 (by decide)).2.1 0
     (by decide),
   ((C5_palindrome_shape cfg2 100 s2a 0 (by decide)).1 (by decide)).2.2,
   (C5_palindrome_shape cfg2 100 s2a 0 (by decide)).2.2⟩

/-- C6: `add_task(vertex, priority)` sets the vertex's active-set bit; it
performs `insert_or_promote_max` on shard queue `vmap[vertex]` exactly
when the bit was previously clear or the queue still contains the vertex
(so an in-flight vertex — bit set but absent from its queue — is
deliberately not re-enqueued); and it then notifies the terminator of new
work for worker `shard / queue_multiple`. -/
theorem C6_add_task_semantics (cfg : Config) (s : SState) (v : Nat) (p : Rat)
    (hv : v < cfg.g.numVertices)
    (hlen : s.activeSet.length = cfg.g.numVertices) :
    (add_task cfg s v p).activeSet.getD v false = true ∧
    ((s.activeSet.getD v false = false ∨
        qContains (s.pqueues.getD (vmap cfg v) []) v = true) →
      (add_task cfg s v p).pqueues =
        s.pqueues.set (vmap cfg v)
          (qInsertMax (s.pqueues.getD (vmap cfg v) []) v p)) ∧
    ((s.activeSet.getD v false = true ∧
        qContains (s.pqueues.getD (vmap cfg v) []) v = false) →
      (add_task cfg s v p).pqueues = s.pqueues) ∧
    (add_task cfg s v p).jobs = (vmap cfg v / queue_multiple) :: s.jobs := by
  refine ⟨?_, ?_, ?_, ?_⟩
  · rw [add_task_activeSet, getD_set_lt_idx _ (by rw [hlen]; exact hv)]
  · intro hor
    have hcond : (! s.activeSet.getD v false ||
        qContains (s.pqueues.getD (vmap cfg v) []) v) = true := by
      rcases hor with h1 | h1
      · rw [h1]
        rfl
      · rw [h1]
        simp
    simp only [add_task, hcond, if_true]
  · rintro ⟨h1, h2⟩
    have hcond : (! s.activeSet.getD v false ||
        qContains (s.pqueues.getD (vmap cfg v) []) v) = false := by
      rw [h1, h2]
      rfl
    simp only [add_task, hcond, Bool.false_eq_true, if_false]
  · by_cases hcond : (! s.activeSet.getD v false ||
        qContains (s.pqueues.getD (vmap cfg v) []) v) = true
    · simp only [add_task, hcond, if_true]
    · simp only [add_task, hcond, Bool.false_eq_true, if_false]

/-- C6 witness: `add_task(0, 2)` on the freshly constructed two-vertex
scheduler: the bit becomes set, the queue receives the entry, and the
terminator is notified for worker 0. -/
theorem C6_add_task_semantics_witness :
    (add_task cfg2 (initState cfg2) 0 2).activeSet.getD 0 false = true ∧
    (add_task cfg2 (initState cfg2) 0 2).pqueues =
      (initState cfg2).pqueues.set (vmap cfg2 0)
        (qInsertMax ((initState cfg2).pqueues.getD (vmap cfg2 0) []) 0 2) ∧
    (add_task cfg2 (initState cfg2) 0 2).jobs =
      (vmap cfg2 0 / queue_multiple) :: (initState cfg2).jobs :=
  ⟨(C6_add_task_semantics cfg2 (initState cfg2) 0 2 (by decide) (by decide)).1,
   (C6_add_task_semantics cfg2 (initState cfg2) 0 2 (by decide)
      (by decide)).2.1 (Or.inl (by decide)),
   (C6_add_task_semantics cfg2 (initState cfg2) 0 2 (by decide)
      (by decide)).2.2.2⟩

/-- C7: Active-set coverage.  In every reachable state, a vertex present
in any shard queue has its active-set bit set; every interface operation
preserves this. -/
theorem C7_active_set_coverage (cfg : Config) {s : SState}
    (h : Reachable cfg s) (i v : Nat) (hq : queueHas s i v = true) :
    s.activeSet.getD v false = true := by
  obtain ⟨e, he, he1⟩ := qContains_iff.mp hq
  have H := (reachable_good h).2.2 i e he
  rw [← he1]
  exact H.2.2

/-- C7 witness: after the two submissions of the two-vertex scenario,
vertex 0 is in queue 0 and its bit is set. -/
theorem C7_active_set_coverage_witness :
    queueHas s2a 0 0 = true ∧ s2a.activeSet.getD 0 false = true :=
  ⟨by decide,
   C7_active_set_coverage cfg2
     (Reachable.add 1 1 (Reachable.add 0 1 Reachable.init (by decide))
       (by decide)) 0 0 (by decide)⟩

/-- C8: Shard confinement.  `vmap[v] = v mod (ncpus·queue_multiple)` is
fixed by construction, and in every reachable state a vertex present in a
shard queue is present only in queue `vmap[v]`. -/
theorem C8_shard_confinement (cfg : Config) {s : SState}
    (h : Reachable cfg s) (i v : Nat) (hq : queueHas s i v = true) :
    i = vmap cfg v ∧ vmap cfg v = v % (cfg.ncpus * queue_multiple) := by
  obtain ⟨e, he, he1⟩ := qContains_iff.mp hq
  have H := (reachable_good h).2.2 i e he
  refine ⟨?_, rfl⟩
  rw [← he1]
  exact H.2.1.symm

/-- C8 witness: vertex 1 of the two-vertex scenario lives in queue 1 =
vmap[1]. -/
theorem C8_shard_confinement_witness :
    queueHas s2a 1 1 = true ∧ 1 = vmap cfg2 1 ∧
      vmap cfg2 1 = 1 % (cfg2.ncpus * queue_multiple) :=
  ⟨by decide,
   (C8_shard_confinement cfg2
     (Reachable.add 1 1 (Reachable.add 0 1 Reachable.init (by decide))
       (by decide)) 1 1 (by decide)).1,
   (C8_shard_confinement cfg2
     (Reachable.add 1 1 (Reachable.add 0 1 Reachable.init (by decide))
       (by decide)) 1 1 (by decide)).2⟩

/-- C9: Urgent root.  If the root popped by `rebuild_splash` has priority
strictly above 1, the work counter is forced to `splash_size`, the BFS
loop does not run, and the installed buffer is exactly the one-element
splash [root] with no palindrome extension. -/
theorem C9_urgent_root (cfg : Config) (fuel : Nat) (s : SState)
    (cpu root : Nat) (p : Rat) (hcpu : cpu < s.splashes.length)
    (htop : (get_top (clearSplash s cpu) cpu).1 = some (root, p))
    (hp : 1 < p) :
    (rebuild_splash cfg fuel s cpu).splashes.getD cpu [] = [root] ∧
    ((rebuild_splash cfg fuel s cpu).splashes.getD cpu []).length = 1 := by
  have hf := build_forward_urgent cfg fuel s cpu root p htop hp
  rw [rebuild_splashes cfg fuel s cpu hcpu, hf]
  refine ⟨?_, ?_⟩ <;> simp [palindromize]

/-- C9 witness: `add_task(0, 3)` on the one-vertex scheduler yields the
root (0, 3) with priority above 1 and the single-element buffer [0]. -/
theorem C9_urgent_root_witness :
    (rebuild_splash cfg1 100 s1urgent 0).splashes.getD 0 [] = [0] ∧
    ((rebuild_splash cfg1 100 s1urgent 0).splashes.getD 0 []).length = 1 :=
  C9_urgent_root cfg1 100 s1urgent 0 0 3 (by decide) (by decide) (by decide)

/-- C10: Whenever `next_task_from_splash` produces NEWTASK for a vertex
`v` from a reachable state, `v`'s active-set bit was set before the call
and is clear afterwards (the 1 → 0 transition happens at production), and
in the post-state `v` is in no shard queue (it is removed from queue
`vmap[v]` before the bit test, and shard confinement rules out every other
queue). -/
theorem C10_production_state (cfg : Config) (bf f : Nat) {s : SState}
    (h : Reachable cfg s) (cpu v : Nat)
    (hr : (next_task_from_splash cfg bf f s cpu).1 =
      some (SStatus.NewTask v)) :
    s.activeSet.getD v false = true ∧
    (next_task_from_splash cfg bf f s cpu).2.activeSet.getD v false = false ∧
    ∀ i, queueHas (next_task_from_splash cfg bf f s cpu).2 i v = false := by
  have hpre := next_some_pre cfg bf f s cpu v hr
  have hpost := next_some_post cfg bf f s cpu v hr
  refine ⟨hpre, hpost, ?_⟩
  intro i
  cases hqv : queueHas (next_task_from_splash cfg bf f s cpu).2 i v with
  | false => rfl
  | true =>
    exfalso
    have hgood : goodState cfg (next_task_from_splash cfg bf f s cpu).2 :=
      goodState_next cfg bf f s cpu (reachable_good h)
    obtain ⟨e, he, he1⟩ := qContains_iff.mp hqv
    have hbit := (hgood.2.2 i e he).2.2
    rw [he1, hpost] at hbit
    exact Bool.noConfusion hbit

/-- C10 witness: the first poll of the two-vertex scenario produces vertex
1; afterwards its bit is clear and it is in neither shard queue (and its
bit was set beforehand). -/
theorem C10_production_state_witness :
    s2a.activeSet.getD 1 false = true ∧
    (next_task_from_splash cfg2 100 10 s2a 0).2.activeSet.getD 1 false =
      false ∧
    queueHas (next_task_from_splash cfg2 100 10 s2a 0).2 0 1 = false ∧
    queueHas (next_task_from_splash cfg2 100 10 s2a 0).2 1 1 = false :=
  ⟨(C10_production_state cfg2 100 10
      (Reachable.add 1 1 (Reachable.add 0 1 Reachable.init (by decide))
        (by decide)) 0 1 (by decide)).1,
   (C10_production_state cfg2 100 10
      (Reachable.add 1 1 (Reachable.add 0 1 Reachable.init (by decide))
        (by decide)) 0 1 (by decide)).2.1,
   (C10_production_state cfg2 100 10
      (Reachable.add 1 1 (Reachable.add 0 1 Reachable.init (by decide))
        (by decide)) 0 1 (by decide)).2.2 0,
   (C10_production_state cfg2 100 10
      (Reachable.add 1 1 (Reachable.add 0 1 Reachable.init (by decide))
        (by decide)) 0 1 (by decide)).2.2 1⟩
end SplashSched
